import Mathlib

/-!
# Verification of the poryscript text-formatting engine

Shallow embedding of `tools/poryscript/parser/formattext.go`.

Modelling conventions:
* Go strings are modelled as `List Char`; Go's `for pos, char := range text`
  iterates runes with byte offsets, and every slice taken by the code lands on
  rune boundaries, so rune indices are a faithful position model.
* Go `int` is modelled as `Int` (widths, `maxWidth`).
* The Go maps `fonts` and `widths` are modelled as association lists with
  `List.lookup`; the error message lists the font identifiers in table order.
* `getNextWord` in Go always returns a `nil` error, so it is modelled without
  an error component; `FormatText`'s only failure is the font-id validation.
* The two loops (`FormatText`'s word loop, and the regex scan of
  `processControlCodes`) are given explicit fuel `length + 1`, which is always
  sufficient because every iteration consumes at least one character; this
  keeps every definition computable by kernel reduction.
-/

set_option linter.unusedVariables false

/-- `Fonts` record from formattext.go: per-font width table (keys are a single
rendered character, a full `{...}` control code, or `"default"`) and the
advisory `maxLineLength` (never read by the wrap engine). -/
structure Fonts where
  widths : List (String × Int)
  maxLineLength : Int
deriving Repr, DecidableEq

/-- `FontConfig` record from formattext.go. -/
structure FontConfig where
  defaultFontID : String
  fonts : List (String × Fonts)
deriving Repr, DecidableEq

def testFontID : String := "TEST"

def fallbackWidth : Int := 0

/-- `readWidthFromFontConfig` from formattext.go: font lookup, then key lookup,
then the font's `"default"` entry, then the fallback width 0. -/
def readWidthFromFontConfig (fc : FontConfig) (value : String) (fontID : String) : Int :=
  match fc.fonts.lookup fontID with
  | none => fallbackWidth
  | some font =>
    match font.widths.lookup value with
    | some width => width
    | none =>
      match font.widths.lookup "default" with
      | some defaultWidth => defaultWidth
      | none => fallbackWidth

/-- `getRunePixelWidth` from formattext.go. -/
def getRunePixelWidth (fc : FontConfig) (r : Char) (fontID : String) : Int :=
  if fontID = testFontID then 10
  else readWidthFromFontConfig fc (String.mk [r]) fontID

/-- `getControlCodePixelWidth` from formattext.go. -/
def getControlCodePixelWidth (fc : FontConfig) (code : List Char) (fontID : String) : Int :=
  if fontID = testFontID then 100
  else readWidthFromFontConfig fc (String.mk code) fontID

/-- `isFontIDValid` from formattext.go. -/
def isFontIDValid (fc : FontConfig) (fontID : String) : Bool :=
  (fc.fonts.lookup fontID).isSome

/-- `isLineBreak` from formattext.go. -/
def isLineBreak (word : List Char) : Bool :=
  word == ['\\', 'n'] || word == ['\\', 'l'] || word == ['\\', 'p']

/-- `isParagraphBreak` from formattext.go. -/
def isParagraphBreak (word : List Char) : Bool :=
  word == ['\\', 'p']

/-- The brace-nesting update of `getNextWord`'s loop in formattext.go:
`{` increments, `}` decrements when positive, everything else is neutral. -/
def braceStep (c : Char) (l : Nat) : Nat :=
  if c = '{' then l + 1
  else if c = '}' ∧ 0 < l then l - 1
  else l

/-- The local variables of `getNextWord`'s scanning loop in formattext.go. -/
structure ScanState where
  escape : Bool
  endPos : Nat
  startPos : Nat
  foundNonSpace : Bool
  foundRegularRune : Bool
  endOnNext : Bool
  controlCodeLevel : Nat
deriving Repr, DecidableEq

/-- Go slice `text[a:b]`. -/
def goSlice (text : List Char) (a b : Nat) : List Char :=
  (text.take b).drop a

/-- The `for pos, char := range text` loop of `getNextWord` from formattext.go.
`text` is the whole string (for slicing), the first list argument is the
remaining input, the `Nat` is the current position. -/
def getNextWordAux (text : List Char) : List Char → Nat → ScanState → Nat × List Char
  | [], _, s =>
    if s.foundNonSpace then (text.length, text.drop s.startPos)
    else (text.length, [])
  | c :: rest, pos, s =>
    if s.endOnNext then (pos, goSlice text s.startPos pos)
    else if s.escape = true ∧ (c = 'l' ∨ c = 'n' ∨ c = 'p') then
      if s.foundRegularRune then (s.endPos, goSlice text s.startPos s.endPos)
      else getNextWordAux text rest (pos + 1) { s with endOnNext := true }
    else if c = '\\' ∧ s.controlCodeLevel = 0 then
      getNextWordAux text rest (pos + 1)
        { s with escape := true,
                 startPos := if s.foundRegularRune then s.startPos else pos,
                 foundNonSpace := true,
                 endPos := pos }
    else if c = ' ' then
      if s.foundNonSpace ∧ s.controlCodeLevel = 0 then (pos, goSlice text s.startPos pos)
      else getNextWordAux text rest (pos + 1) { s with escape := false }
    else
      getNextWordAux text rest (pos + 1)
        { s with startPos := if s.foundNonSpace then s.startPos else pos,
                 foundRegularRune := true,
                 foundNonSpace := true,
                 controlCodeLevel := braceStep c s.controlCodeLevel,
                 escape := false }

/-- `getNextWord` from formattext.go: `(bytesConsumed, tokenText)`. -/
def getNextWord (text : List Char) : Nat × List Char :=
  getNextWordAux text text 0 ⟨false, 0, 0, false, false, false, 0⟩

/-- Scan up to the first `'}'`: `some (inside, after)` splits the input around
the first closing brace, `none` if there is no closing brace at all. -/
def scanCode : List Char → Option (List Char × List Char)
  | [] => none
  | c :: rest =>
    if c = '}' then some ([], rest)
    else
      match scanCode rest with
      | none => none
      | some (inside, after) => some (c :: inside, after)

/-- The semantics of regexp `{[^}]*}` used by `processControlCodes` in
formattext.go: leftmost non-overlapping matches.  Returns the list of matched
control-code spans (in order) and the text with the matches removed
(`ReplaceAllString(word, "")`).  Fueled; `length + 1` always suffices. -/
def findControlCodes : Nat → List Char → List (List Char) × List Char
  | 0, rest => ([], rest)
  | _ + 1, [] => ([], [])
  | fuel + 1, c :: rest =>
    if c = '{' then
      match scanCode rest with
      | some (inside, after) =>
        let (codes, stripped) := findControlCodes fuel after
        (('{' :: (inside ++ ['}'])) :: codes, stripped)
      | none => ([], c :: rest)
    else
      let (codes, stripped) := findControlCodes fuel rest
      (codes, c :: stripped)

/-- `processControlCodes` from formattext.go: total width of the control-code
spans matched by `{[^}]*}` (each priced via `getControlCodePixelWidth`),
together with the word with those spans stripped. -/
def processControlCodes (fc : FontConfig) (word : List Char) (fontID : String) :
    List Char × Int :=
  let (codes, stripped) := findControlCodes (word.length + 1) word
  (stripped, (codes.map (fun code => getControlCodePixelWidth fc code fontID)).sum)

/-- `getWordPixelWidth` from formattext.go. -/
def getWordPixelWidth (fc : FontConfig) (word : List Char) (fontID : String) : Int :=
  let (strippedWord, wordWidth) := processControlCodes fc word fontID
  wordWidth + (strippedWord.map (fun r => getRunePixelWidth fc r fontID)).sum

/-- The mutable state of `FormatText`'s loop in formattext.go. -/
structure WrapState where
  formattedSb : List Char
  curLineSb : List Char
  curWidth : Int
  isFirstLine : Bool
  isFirstWord : Bool
deriving Repr, DecidableEq

/-- The body of `FormatText`'s per-token processing in formattext.go
(the `if fc.isLineBreak(word) { ... } else { ... }` block). -/
def processWord (fc : FontConfig) (maxWidth : Int) (fontID : String)
    (word : List Char) (s : WrapState) : WrapState :=
  if isLineBreak word then
    { formattedSb := s.formattedSb ++ s.curLineSb ++ word ++ ['\n']
      curLineSb := []
      curWidth := 0
      isFirstLine := isParagraphBreak word
      isFirstWord := true }
  else
    let wordWidth :=
      (if s.isFirstWord then 0 else getRunePixelWidth fc ' ' fontID) +
        getWordPixelWidth fc word fontID
    if s.curWidth + wordWidth > maxWidth ∧ s.curLineSb ≠ [] then
      { formattedSb :=
          s.formattedSb ++ s.curLineSb ++
            (if s.isFirstLine then ['\\', 'n'] else ['\\', 'l']) ++ ['\n']
        curLineSb := word
        curWidth := wordWidth
        isFirstLine := false
        isFirstWord := false }
    else
      { formattedSb := s.formattedSb
        curLineSb := s.curLineSb ++ (if s.isFirstWord then [] else [' ']) ++ word
        curWidth := s.curWidth + wordWidth
        isFirstLine := s.isFirstLine
        isFirstWord := false }

/-- The `for pos < len(text)` loop of `FormatText` from formattext.go, fueled:
`length + 1` fuel always suffices since every consumed word advances `pos`. -/
def formatLoop (fc : FontConfig) (maxWidth : Int) (fontID : String) :
    Nat → List Char → WrapState → WrapState
  | 0, _, s => s
  | _ + 1, [], s => s
  | fuel + 1, c :: rest, s =>
    let (endPos, word) := getNextWord (c :: rest)
    if word = [] then s
    else formatLoop fc maxWidth fontID fuel ((c :: rest).drop endPos)
      (processWord fc maxWidth fontID word s)

/-- The token stream `FormatText` consumes: the same loop as `formatLoop`,
recording the words instead of processing them. -/
def tokenizeLoop : Nat → List Char → List (List Char)
  | 0, _ => []
  | _ + 1, [] => []
  | fuel + 1, c :: rest =>
    let (endPos, word) := getNextWord (c :: rest)
    if word = [] then []
    else word :: tokenizeLoop fuel ((c :: rest).drop endPos)

def tokenize (text : List Char) : List (List Char) :=
  tokenizeLoop (text.length + 1) text

/-- Processing a whole token list with `processWord`. -/
def processWords (fc : FontConfig) (maxWidth : Int) (fontID : String)
    (ws : List (List Char)) (s : WrapState) : WrapState :=
  ws.foldl (fun s w => processWord fc maxWidth fontID w s) s

/-- `strings.ReplaceAll(text, "\n", " ")` from formattext.go. -/
def normalizeNewlines (text : List Char) : List Char :=
  text.map fun c => if c = '\n' then ' ' else c

/-- The keys of the `fonts` table, as collected for the error message. -/
def validFontIDs (fc : FontConfig) : List String :=
  fc.fonts.map Prod.fst

/-- Space-separated join, as used both for the `%s` rendering of the valid
font-id slice in Go's error message and for reassembling words. -/
def joinWords : List (List Char) → List Char
  | [] => []
  | w :: ws =>
    match ws with
    | [] => w
    | _ :: _ => w ++ ' ' :: joinWords ws

def validFontIDsJoined (fc : FontConfig) : List Char :=
  joinWords ((validFontIDs fc).map String.data)

/-- The error text of
`fmt.Errorf("unknown fontID '%s' used in format(). List of valid fontIDs are '%s'", fontID, validFontIDs)`
(Go renders a string slice as `[id1 id2 ...]`). -/
def unknownFontIDError (fc : FontConfig) (fontID : String) : List Char :=
  "unknown fontID '".data ++ fontID.data ++
    "' used in format(). List of valid fontIDs are '[".data ++
    validFontIDsJoined fc ++ "]'".data

/-- The final `formattedSb.WriteString(curLineSb.String())` (the Go guard on a
non-empty current line is a no-op, appending the empty string is the identity). -/
def wrapOutput (s : WrapState) : List Char :=
  s.formattedSb ++ s.curLineSb

/-- `FormatText` from formattext.go. -/
def FormatText (fc : FontConfig) (text : List Char) (maxWidth : Int)
    (fontID : String) : Except (List Char) (List Char) :=
  if ¬ isFontIDValid fc fontID = true ∧ 0 < fontID.length ∧ fontID ≠ testFontID then
    Except.error (unknownFontIDError fc fontID)
  else
    let text2 := normalizeNewlines text
    Except.ok (wrapOutput
      (formatLoop fc maxWidth fontID (text2.length + 1) text2 ⟨[], [], 0, true, true⟩))

/-! ## Proof-support definitions

Simplified characterisations of the scanner on backslash-free text, the
conversion of break markers back to spaces, and substring occurrence checks.
These are proof devices; every fact connecting them to the embedded code is
proved below. -/

/-- Number of characters of a backslash-free token starting at brace level
`l`: scanning stops at a space seen at level 0. -/
def scanTok : List Char → Nat → Nat
  | [], _ => 0
  | c :: rest, l => if c = ' ' ∧ l = 0 then 0 else 1 + scanTok rest (braceStep c l)

/-- Length of the leading run of spaces. -/
def leadSp : List Char → Nat
  | [] => 0
  | c :: rest => if c = ' ' then 1 + leadSp rest else 0

/-- A well-formed backslash-free token fragment at brace level `l`: no
backslash, and spaces occur only at positive brace level. -/
def okTok : List Char → Nat → Bool
  | [], _ => true
  | c :: rest, l =>
    if c = '\\' then false
    else if c = ' ' then decide (0 < l) && okTok rest l
    else okTok rest (braceStep c l)

/-- Brace level after scanning a fragment from level `l`. -/
def levelAfter : List Char → Nat → Nat
  | [], l => l
  | c :: rest, l => levelAfter rest (braceStep c l)

/-- Simplified tokenizer for backslash-free text: skip spaces, then take
`scanTok` characters.  Fueled like `tokenizeLoop`. -/
def tokSimpleLoop : Nat → List Char → List (List Char)
  | 0, _ => []
  | fuel + 1, t =>
    match t.drop (leadSp t) with
    | [] => []
    | c :: rest =>
      ((c :: rest).take (scanTok (c :: rest) 0)) ::
        tokSimpleLoop fuel ((c :: rest).drop (scanTok (c :: rest) 0))

/-- Well-shaped token list: every token is nonempty and `okTok`, and every
token but the last returns to brace level 0 (it was terminated by a space). -/
def goodToks : List (List Char) → Prop
  | [] => True
  | [w] => w ≠ [] ∧ okTok w 0 = true
  | w :: ws => w ≠ [] ∧ okTok w 0 = true ∧ levelAfter w 0 = 0 ∧ goodToks ws

/-- Convert the break markers of formatted output back to spaces: each
occurrence of a two-character `\n`/`\l`/`\p` marker followed by a real
newline becomes a single space, scanning left to right. -/
def unbreak : List Char → List Char
  | [] => []
  | [c] => [c]
  | [c, d] => [c, d]
  | c :: d :: e :: rest =>
    if c = '\\' ∧ (d = 'n' ∨ d = 'l' ∨ d = 'p') ∧ e = '\n' then ' ' :: unbreak rest
    else c :: unbreak (d :: e :: rest)

/-- `A` is a clean output block: `unbreak` distributes over appending
anything after it (no marker can straddle its right edge). -/
def Unb (A : List Char) : Prop :=
  ∀ t, unbreak (A ++ t) = unbreak A ++ unbreak t

/-- Boolean test: `w` is a leading block of `t`. -/
def isPrefOf : List Char → List Char → Bool
  | [], _ => true
  | _ :: _, [] => false
  | a :: as, b :: bs => a == b && isPrefOf as bs

/-- Boolean test: `w` occurs contiguously inside `t`. -/
def hasSub (w : List Char) : List Char → Bool
  | [] => isPrefOf w []
  | c :: ts => isPrefOf w (c :: ts) || hasSub w ts

/-- An empty font configuration, for concrete witnesses. -/
def fcEmpty : FontConfig := ⟨"", []⟩

/-- A small sample font configuration, for concrete witnesses. -/
def fcSample : FontConfig :=
  ⟨"1_latin", [("1_latin", ⟨[("a", 5), (" ", 3), ("default", 8)], 208⟩)]⟩

/-! ## Basic scanner lemmas -/

theorem goSlice_zero (text : List Char) (a : Nat) : goSlice text a 0 = [] := by
  simp [goSlice]

theorem goSlice_eq_drop_take (text : List Char) (a n : Nat) :
    goSlice text a (a + n) = (text.drop a).take n := by
  simp [goSlice, List.drop_take]

/-- If the scanner reports zero consumed characters, the token is empty. -/
theorem getNextWordAux_snd_of_fst_zero (text : List Char) :
    ∀ rem pos s, (getNextWordAux text rem pos s).1 = 0 →
      (getNextWordAux text rem pos s).2 = [] := by
  intro rem
  induction rem with
  | nil =>
    intro pos s
    simp only [getNextWordAux]
    split
    · intro h
      simp only at h ⊢
      have : text = [] := List.length_eq_zero.mp h
      simp [this]
    · intro _; rfl
  | cons c rest ih =>
    intro pos s
    simp only [getNextWordAux]
    split
    · intro h
      simp only at h ⊢
      simp [h, goSlice_zero]
    · split
      · split
        · intro h
          simp only at h ⊢
          simp [h, goSlice_zero]
        · exact ih _ _
      · split
        · exact ih _ _
        · split
          · split
            · intro h
              simp only at h ⊢
              simp [h, goSlice_zero]
            · exact ih _ _
          · exact ih _ _

theorem getNextWord_fst_pos (t : List Char) (h : (getNextWord t).2 ≠ []) :
    0 < (getNextWord t).1 := by
  rcases Nat.eq_zero_or_pos (getNextWord t).1 with h0 | h0
  · exact absurd (getNextWordAux_snd_of_fst_zero t t 0 _ h0) h
  · exact h0

/-- Every character of a returned token occurs in the scanned text. -/
theorem getNextWordAux_snd_subset (text : List Char) :
    ∀ rem pos s c, c ∈ (getNextWordAux text rem pos s).2 → c ∈ text := by
  intro rem
  induction rem with
  | nil =>
    intro pos s c
    simp only [getNextWordAux]
    split
    · exact fun h => List.mem_of_mem_drop h
    · intro h; simp at h
  | cons a rest ih =>
    intro pos s c
    simp only [getNextWordAux]
    split
    · exact fun h => List.mem_of_mem_take (List.mem_of_mem_drop h)
    · split
      · split
        · exact fun h => List.mem_of_mem_take (List.mem_of_mem_drop h)
        · exact ih _ _ _
      · split
        · exact ih _ _ _
        · split
          · split
            · exact fun h => List.mem_of_mem_take (List.mem_of_mem_drop h)
            · exact ih _ _ _
          · exact ih _ _ _

theorem getNextWord_snd_subset (t : List Char) (c : Char)
    (h : c ∈ (getNextWord t).2) : c ∈ t :=
  getNextWordAux_snd_subset t t 0 _ c h

/-- Every character of every token occurs in the tokenized text. -/
theorem tokenizeLoop_subset :
    ∀ (fuel : Nat) (t w : List Char), w ∈ tokenizeLoop fuel t → ∀ c ∈ w, c ∈ t := by
  intro fuel
  induction fuel with
  | zero => intro t w h; simp [tokenizeLoop] at h
  | succ fuel ih =>
    intro t w h c hc
    match t with
    | [] => simp [tokenizeLoop] at h
    | a :: rest =>
      simp only [tokenizeLoop] at h
      split at h
      · simp at h
      · rcases List.mem_cons.mp h with h | h
        · exact getNextWord_snd_subset _ c (h ▸ hc)
        · exact List.mem_of_mem_drop (ih _ _ h c hc)

theorem tokenize_subset (t w : List Char) (h : w ∈ tokenize t) :
    ∀ c ∈ w, c ∈ t :=
  tokenizeLoop_subset _ t w h

/-! ## Closed form of the scanner on backslash-free text -/

theorem braceStep_space (l : Nat) : braceStep ' ' l = l := by
  simp [braceStep]

/-- One scanner step from a quiescent state (no pending escape, no pending
end-of-token). -/
theorem gnwAux_step (text : List Char) (c : Char) (rest : List Char)
    (pos e sp : Nat) (fns frr : Bool) (l : Nat) :
    getNextWordAux text (c :: rest) pos ⟨false, e, sp, fns, frr, false, l⟩ =
      if c = '\\' ∧ l = 0 then
        getNextWordAux text rest (pos + 1)
          ⟨true, pos, (if frr then sp else pos), true, frr, false, l⟩
      else if c = ' ' then
        (if fns ∧ l = 0 then (pos, goSlice text sp pos)
         else getNextWordAux text rest (pos + 1) ⟨false, e, sp, fns, frr, false, l⟩)
      else
        getNextWordAux text rest (pos + 1)
          ⟨false, e, (if fns then sp else pos), true, true, false, braceStep c l⟩ := by
  simp only [getNextWordAux]
  rw [if_neg (by simp), if_neg (by simp)]

/-- Mid-token scan on backslash-free input: with `foundNonSpace` set and no
escape pending, the scanner consumes exactly `scanTok` further characters and
returns the slice from `startPos`. -/
theorem scanAux_noBS (text : List Char) :
    ∀ (rem : List Char) (pos sp e : Nat) (frr : Bool) (l : Nat),
      '\\' ∉ rem → text.length = pos + rem.length →
      getNextWordAux text rem pos ⟨false, e, sp, true, frr, false, l⟩ =
        (pos + scanTok rem l, goSlice text sp (pos + scanTok rem l)) := by
  intro rem
  induction rem with
  | nil =>
    intro pos sp e frr l hbs hlen
    have hp : pos = text.length := by simp at hlen; omega
    subst hp
    simp [getNextWordAux, scanTok, goSlice, List.take_length]
  | cons c rest ih =>
    intro pos sp e frr l hbs hlen
    have hc : c ≠ '\\' := fun h => hbs (h ▸ List.mem_cons_self c rest)
    have hbs' : '\\' ∉ rest := fun h => hbs (List.mem_cons_of_mem c h)
    have hlen' : text.length = (pos + 1) + rest.length := by simp at hlen; omega
    rw [gnwAux_step]
    rw [if_neg (fun h => hc h.1)]
    by_cases hsp : c = ' '
    · subst hsp
      rw [if_pos rfl]
      by_cases hl : l = 0
      · subst hl
        rw [if_pos (by simp)]
        simp [scanTok]
      · rw [if_neg (by simp [hl])]
        rw [ih (pos + 1) sp e frr l hbs' hlen']
        have hs : scanTok (' ' :: rest) l = 1 + scanTok rest l := by
          simp [scanTok, hl, braceStep_space]
        rw [hs, show pos + (1 + scanTok rest l) = pos + 1 + scanTok rest l by omega]
    · rw [if_neg hsp]
      have hst : (if (true : Bool) then sp else pos) = sp := by simp
      rw [hst, ih (pos + 1) sp e true (braceStep c l) hbs' hlen']
      have hs : scanTok (c :: rest) l = 1 + scanTok rest (braceStep c l) := by
        simp [scanTok, hsp]
      rw [hs, show pos + (1 + scanTok rest (braceStep c l)) =
        pos + 1 + scanTok rest (braceStep c l) by omega]

/-- Leading phase on backslash-free input: spaces are skipped, then the scan
proceeds as in `scanAux_noBS`. -/
theorem scanAux_lead (text : List Char) :
    ∀ (rem : List Char) (pos sp e : Nat),
      '\\' ∉ rem → text.length = pos + rem.length →
      getNextWordAux text rem pos ⟨false, e, sp, false, false, false, 0⟩ =
        (if rem.drop (leadSp rem) = [] then (text.length, [])
         else (pos + leadSp rem + scanTok (rem.drop (leadSp rem)) 0,
               goSlice text (pos + leadSp rem)
                 (pos + leadSp rem + scanTok (rem.drop (leadSp rem)) 0))) := by
  intro rem
  induction rem with
  | nil =>
    intro pos sp e hbs hlen
    simp [getNextWordAux, leadSp]
  | cons c rest ih =>
    intro pos sp e hbs hlen
    have hc : c ≠ '\\' := fun h => hbs (h ▸ List.mem_cons_self c rest)
    have hbs' : '\\' ∉ rest := fun h => hbs (List.mem_cons_of_mem c h)
    have hlen' : text.length = (pos + 1) + rest.length := by simp at hlen; omega
    rw [gnwAux_step]
    rw [if_neg (fun h => hc h.1)]
    by_cases hsp : c = ' '
    · subst hsp
      rw [if_pos rfl, if_neg (by simp)]
      rw [ih (pos + 1) sp e hbs' hlen']
      have hl : leadSp (' ' :: rest) = 1 + leadSp rest := by simp [leadSp]
      have hd : (' ' :: rest).drop (leadSp (' ' :: rest)) = rest.drop (leadSp rest) := by
        rw [hl]; simp [List.drop_succ_cons, Nat.add_comm]
      rw [hd, hl]
      split
      · rfl
      · rw [show pos + 1 + leadSp rest = pos + (1 + leadSp rest) by omega]
    · rw [if_neg hsp]
      have hst : (if (false : Bool) then sp else pos) = pos := by simp
      rw [hst, scanAux_noBS text rest (pos + 1) pos e true (braceStep c 0) hbs' hlen']
      have hl : leadSp (c :: rest) = 0 := by simp [leadSp, hsp]
      have hs : scanTok (c :: rest) 0 = 1 + scanTok rest (braceStep c 0) := by
        simp [scanTok, hsp]
      rw [if_neg (by simp [hl])]
      rw [hl]
      simp only [List.drop_zero]
      rw [hs, show pos + 0 + (1 + scanTok rest (braceStep c 0)) =
        pos + 1 + scanTok rest (braceStep c 0) by omega]
      simp

/-- `getNextWord` on backslash-free text: skip leading spaces, then take
`scanTok` characters. -/
theorem getNextWord_noBS (t : List Char) (h : '\\' ∉ t) :
    getNextWord t =
      if t.drop (leadSp t) = [] then (t.length, [])
      else (leadSp t + scanTok (t.drop (leadSp t)) 0,
            (t.drop (leadSp t)).take (scanTok (t.drop (leadSp t)) 0)) := by
  unfold getNextWord
  rw [scanAux_lead t t 0 0 0 h (by simp)]
  split
  · rfl
  · rw [show (0 : Nat) + leadSp t = leadSp t by omega, goSlice_eq_drop_take]

theorem drop_leadSp_head :
    ∀ (t : List Char) (x : Char) (xs : List Char),
      t.drop (leadSp t) = x :: xs → x ≠ ' ' := by
  intro t
  induction t with
  | nil => intro x xs h; simp at h
  | cons c rest ih =>
    intro x xs h
    by_cases hc : c = ' '
    · subst hc
      rw [show leadSp (' ' :: rest) = 1 + leadSp rest by simp [leadSp]] at h
      rw [show (1 + leadSp rest) = leadSp rest + 1 by omega] at h
      simp only [List.drop_succ_cons] at h
      exact ih x xs h
    · rw [show leadSp (c :: rest) = 0 by simp [leadSp, hc]] at h
      simp only [List.drop_zero] at h
      rw [← (List.cons.injEq ..).mp h |>.1]
      exact hc

theorem scanTok_le_length : ∀ (r : List Char) (l : Nat), scanTok r l ≤ r.length := by
  intro r
  induction r with
  | nil => intro l; simp [scanTok]
  | cons c rest ih =>
    intro l
    by_cases h : c = ' ' ∧ l = 0
    · simp [scanTok, h]
    · simp only [scanTok, if_neg h, List.length_cons]
      have := ih (braceStep c l)
      omega

theorem scanTok_cons_pos (c : Char) (rest : List Char) (l : Nat)
    (h : ¬(c = ' ' ∧ l = 0)) : 0 < scanTok (c :: rest) l := by
  simp [scanTok, if_neg h]

/-- The prefix taken by `scanTok` is a well-formed token fragment. -/
theorem okTok_take_scanTok :
    ∀ (r : List Char) (l : Nat), '\\' ∉ r → okTok (r.take (scanTok r l)) l = true := by
  intro r
  induction r with
  | nil => intro l _; simp [scanTok, okTok]
  | cons c rest ih =>
    intro l hbs
    have hc : c ≠ '\\' := fun h => hbs (h ▸ List.mem_cons_self c rest)
    have hbs' : '\\' ∉ rest := fun h => hbs (List.mem_cons_of_mem c h)
    by_cases h : c = ' ' ∧ l = 0
    · simp [scanTok, h, okTok]
    · simp only [scanTok, if_neg h]
      rw [show 1 + scanTok rest (braceStep c l) = scanTok rest (braceStep c l) + 1 by omega]
      simp only [List.take_succ_cons, okTok, if_neg hc]
      by_cases hsp : c = ' '
      · have hl : l ≠ 0 := fun h0 => h ⟨hsp, h0⟩
        rw [if_pos hsp]
        have hb : braceStep c l = l := hsp ▸ braceStep_space l
        rw [hb] at *
        simp [Nat.pos_of_ne_zero hl, ih l hbs']
      · rw [if_neg hsp]
        exact ih (braceStep c l) hbs'

/-- If the scan stopped before the end, the taken prefix is back at level 0. -/
theorem levelAfter_take_scanTok :
    ∀ (r : List Char) (l : Nat), scanTok r l < r.length →
      levelAfter (r.take (scanTok r l)) l = 0 := by
  intro r
  induction r with
  | nil => intro l h; simp [scanTok] at h
  | cons c rest ih =>
    intro l h
    by_cases hc : c = ' ' ∧ l = 0
    · simp [scanTok, hc, levelAfter]
    · simp only [scanTok, if_neg hc, List.length_cons] at h
      simp only [scanTok, if_neg hc]
      rw [show 1 + scanTok rest (braceStep c l) = scanTok rest (braceStep c l) + 1 by omega]
      simp only [List.take_succ_cons, levelAfter]
      exact ih (braceStep c l) (by omega)

/-- A fully well-formed fragment is consumed whole by `scanTok`. -/
theorem scanTok_full : ∀ (w : List Char) (l : Nat), okTok w l = true →
    scanTok w l = w.length := by
  intro w
  induction w with
  | nil => intro l _; simp [scanTok]
  | cons c rest ih =>
    intro l hok
    simp only [okTok] at hok
    split at hok
    · simp at hok
    · split at hok
      · next hsp =>
        rw [Bool.and_eq_true] at hok
        obtain ⟨h1, hok'⟩ := hok
        have hl : 0 < l := by simpa using h1
        have hb : braceStep c l = l := hsp ▸ braceStep_space l
        simp only [scanTok, if_neg (fun hx => by omega : ¬(c = ' ' ∧ l = 0)), hb,
          List.length_cons]
        rw [ih l hok']
        omega
      · next hsp =>
        simp only [scanTok, if_neg (fun hx : _ ∧ _ => hsp hx.1), List.length_cons]
        rw [ih (braceStep c l) hok]
        omega

/-- A closed well-formed token followed by a space stops the scan exactly at
its end. -/
theorem scanTok_append_space :
    ∀ (w : List Char) (l : Nat) (rest : List Char), okTok w l = true →
      levelAfter w l = 0 → scanTok (w ++ ' ' :: rest) l = w.length := by
  intro w
  induction w with
  | nil =>
    intro l rest _ hl
    simp only [levelAfter] at hl
    simp [scanTok, hl]
  | cons c w ih =>
    intro l rest hok hl
    simp only [okTok] at hok
    simp only [levelAfter] at hl
    split at hok
    · simp at hok
    · split at hok
      · next hsp =>
        rw [Bool.and_eq_true] at hok
        obtain ⟨h1, hok'⟩ := hok
        have h0 : 0 < l := by simpa using h1
        have hb : braceStep c l = l := hsp ▸ braceStep_space l
        rw [hb] at hl
        rw [show (c :: w) ++ ' ' :: rest = c :: (w ++ ' ' :: rest) from rfl]
        simp only [scanTok, if_neg (fun hx => by omega : ¬(c = ' ' ∧ l = 0)), hb,
          List.length_cons]
        rw [ih l rest hok' hl]
        omega
      · next hsp =>
        rw [show (c :: w) ++ ' ' :: rest = c :: (w ++ ' ' :: rest) from rfl]
        simp only [scanTok, if_neg (fun hx : _ ∧ _ => hsp hx.1), List.length_cons]
        rw [ih (braceStep c l) rest hok hl]
        omega

theorem okTok_head_ne_space (c : Char) (rest : List Char)
    (h : okTok (c :: rest) 0 = true) : c ≠ ' ' := by
  intro hc
  subst hc
  simp [okTok] at h

theorem tokSimpleLoop_nil : ∀ fuel, tokSimpleLoop fuel [] = [] := by
  intro fuel
  cases fuel <;> simp [tokSimpleLoop, leadSp]

/-- On backslash-free text the embedded tokenizer agrees with the simplified
skip-spaces/`scanTok` tokenizer, fuel for fuel. -/
theorem tokenizeLoop_eq_simple :
    ∀ (fuel : Nat) (t : List Char), '\\' ∉ t →
      tokenizeLoop fuel t = tokSimpleLoop fuel t := by
  intro fuel
  induction fuel with
  | zero => intro t _; simp [tokenizeLoop, tokSimpleLoop]
  | succ fuel ih =>
    intro t hbs
    match t with
    | [] => simp [tokenizeLoop, tokSimpleLoop, leadSp]
    | a :: rest =>
      simp only [tokenizeLoop, tokSimpleLoop]
      rw [getNextWord_noBS _ hbs]
      rcases hr : (a :: rest).drop (leadSp (a :: rest)) with _ | ⟨x, xs⟩
      · simp
      · have hx : x ≠ ' ' := drop_leadSp_head _ x xs hr
        have hpos : 0 < scanTok (x :: xs) 0 :=
          scanTok_cons_pos x xs 0 (by rintro ⟨h1, _⟩; exact hx h1)
        have hne : (x :: xs).take (scanTok (x :: xs) 0) ≠ [] := by
          rcases Nat.exists_eq_add_of_lt hpos with ⟨k, hk⟩
          rw [show scanTok (x :: xs) 0 = k + 1 by omega]
          simp
        simp only [if_neg (by simp : ¬(x :: xs) = []), if_neg hne]
        congr 1
        have hdd : (a :: rest).drop (leadSp (a :: rest) + scanTok (x :: xs) 0) =
            (x :: xs).drop (scanTok (x :: xs) 0) := by
          rw [← hr, List.drop_drop]
        rw [hdd]
        apply ih
        intro hmem
        exact hbs (List.mem_of_mem_drop (hr ▸ List.mem_of_mem_drop hmem))

theorem leadSp_cons_ne (c : Char) (r : List Char) (h : c ≠ ' ') :
    leadSp (c :: r) = 0 := by
  simp [leadSp, h]

/-- The simplified tokenizer produces a well-shaped token list. -/
theorem tokSimple_good :
    ∀ (fuel : Nat) (t : List Char), '\\' ∉ t → t.length < fuel →
      goodToks (tokSimpleLoop fuel t) := by
  intro fuel
  induction fuel with
  | zero => intro t _ h; omega
  | succ fuel ih =>
    intro t hbs hlen
    simp only [tokSimpleLoop]
    split
    · simp [goodToks]
    · rename_i x xs hr
      have hx : x ≠ ' ' := drop_leadSp_head _ x xs hr
      have hbs0 : '\\' ∉ x :: xs := by
        rw [← hr]
        intro h
        exact hbs (List.mem_of_mem_drop h)
      have hpos : 0 < scanTok (x :: xs) 0 :=
        scanTok_cons_pos x xs 0 (by rintro ⟨h1, _⟩; exact hx h1)
      have hne : (x :: xs).take (scanTok (x :: xs) 0) ≠ [] := by
        rcases Nat.exists_eq_add_of_lt hpos with ⟨k, hk⟩
        rw [show scanTok (x :: xs) 0 = k + 1 by omega]
        simp
      have hok : okTok ((x :: xs).take (scanTok (x :: xs) 0)) 0 = true :=
        okTok_take_scanTok (x :: xs) 0 hbs0
      have hlen0 : (x :: xs).length ≤ t.length := by
        have := congrArg List.length hr
        simp only [List.length_drop] at this
        omega
      have hxl : (x :: xs).length = xs.length + 1 := by simp
      have hle := scanTok_le_length (x :: xs) 0
      have hrecbs : '\\' ∉ (x :: xs).drop (scanTok (x :: xs) 0) :=
        fun h => hbs0 (List.mem_of_mem_drop h)
      have hreclen : ((x :: xs).drop (scanTok (x :: xs) 0)).length < fuel := by
        simp only [List.length_drop]
        omega
      have hrec := ih _ hrecbs hreclen
      rcases htail : tokSimpleLoop fuel ((x :: xs).drop (scanTok (x :: xs) 0))
        with _ | ⟨y, ys⟩
      · simp only [goodToks]
        exact ⟨hne, hok⟩
      · rw [htail] at hrec
        have hlt : scanTok (x :: xs) 0 < (x :: xs).length := by
          rcases Nat.lt_or_ge (scanTok (x :: xs) 0) (x :: xs).length with h | h
          · exact h
          · exfalso
            have heq : scanTok (x :: xs) 0 = (x :: xs).length := by omega
            rw [heq, List.drop_length, tokSimpleLoop_nil] at htail
            exact List.noConfusion htail
        simp only [goodToks]
        exact ⟨hne, hok, levelAfter_take_scanTok (x :: xs) 0 hlt, hrec⟩

theorem joinWords_cons (w : List Char) (ws : List (List Char)) (h : ws ≠ []) :
    joinWords (w :: ws) = w ++ ' ' :: joinWords ws := by
  cases ws with
  | nil => exact absurd rfl h
  | cons x ws => rfl

theorem joinWords_mem_decomp :
    ∀ (ws : List (List Char)) (w : List Char), w ∈ ws →
      ∃ u v, joinWords ws = u ++ (w ++ v) := by
  intro ws
  induction ws with
  | nil => intro w h; simp at h
  | cons x ws ih =>
    intro w hmem
    rcases List.mem_cons.mp hmem with rfl | hmem
    · cases ws with
      | nil => exact ⟨[], [], by simp [joinWords]⟩
      | cons y ws => exact ⟨[], ' ' :: joinWords (y :: ws), by simp [joinWords]⟩
    · have hne : ws ≠ [] := fun h => by subst h; simp at hmem
      obtain ⟨u, v, huv⟩ := ih w hmem
      exact ⟨x ++ ' ' :: u, v, by rw [joinWords_cons x ws hne, huv]; simp⟩

theorem not_mem_joinWords (ws : List (List Char)) (c : Char) (hc : c ≠ ' ')
    (h : ∀ w ∈ ws, c ∉ w) : c ∉ joinWords ws := by
  induction ws with
  | nil => simp [joinWords]
  | cons x ws ih =>
    cases ws with
    | nil => exact h x (List.mem_cons_self x [])
    | cons y ws =>
      rw [joinWords_cons x (y :: ws) (by simp)]
      intro hmem
      rcases List.mem_append.mp hmem with hmem | hmem
      · exact h x (List.mem_cons_self ..) hmem
      · rcases List.mem_cons.mp hmem with h1 | h1
        · exact hc h1
        · exact ih (fun w hw => h w (List.mem_cons_of_mem x hw)) h1

theorem tokSimpleLoop_cons_space (fuel : Nat) (r : List Char) :
    tokSimpleLoop fuel (' ' :: r) = tokSimpleLoop fuel r := by
  cases fuel with
  | zero => rfl
  | succ fuel =>
    simp only [tokSimpleLoop]
    have h1 : leadSp (' ' :: r) = 1 + leadSp r := by simp [leadSp]
    rw [h1, show 1 + leadSp r = leadSp r + 1 by omega, List.drop_succ_cons]

/-- Retokenizing a space-separated join of a well-shaped token list recovers
exactly the tokens. -/
theorem tokSimpleLoop_joinWords :
    ∀ (ws : List (List Char)) (fuel : Nat), goodToks ws →
      (∀ w ∈ ws, '\\' ∉ w) → (joinWords ws).length < fuel →
      tokSimpleLoop fuel (joinWords ws) = ws := by
  intro ws
  induction ws with
  | nil => intro fuel _ _ _; exact tokSimpleLoop_nil fuel
  | cons w ws ih =>
    intro fuel hgood hbs hlen
    cases ws with
    | nil =>
      obtain ⟨hne, hok⟩ : w ≠ [] ∧ okTok w 0 = true := by
        simpa [goodToks] using hgood
      obtain ⟨c, w', rfl⟩ := List.exists_cons_of_ne_nil hne
      have hc : c ≠ ' ' := okTok_head_ne_space c w' hok
      simp only [joinWords] at hlen ⊢
      cases fuel with
      | zero => omega
      | succ fuel =>
        simp only [tokSimpleLoop, leadSp_cons_ne c w' hc, List.drop_zero]
        rw [scanTok_full (c :: w') 0 hok, List.take_length, List.drop_length,
          tokSimpleLoop_nil]
    | cons x ws' =>
      obtain ⟨hne, hok, hlvl, hgood'⟩ :
          w ≠ [] ∧ okTok w 0 = true ∧ levelAfter w 0 = 0 ∧ goodToks (x :: ws') := by
        simpa [goodToks] using hgood
      obtain ⟨c, w', rfl⟩ := List.exists_cons_of_ne_nil hne
      have hc : c ≠ ' ' := okTok_head_ne_space c w' hok
      rw [joinWords_cons _ _ (by simp)] at hlen ⊢
      cases fuel with
      | zero => omega
      | succ fuel =>
        have hls : leadSp (c :: (w' ++ ' ' :: joinWords (x :: ws'))) = 0 :=
          leadSp_cons_ne c _ hc
        simp only [tokSimpleLoop, List.cons_append, hls, List.drop_zero]
        have hsc : scanTok (c :: (w' ++ ' ' :: joinWords (x :: ws'))) 0 =
            (c :: w').length := by
          rw [← List.cons_append]
          exact scanTok_append_space (c :: w') 0 _ hok hlvl
        have htake : (c :: (w' ++ ' ' :: joinWords (x :: ws'))).take (c :: w').length =
            c :: w' := by
          rw [← List.cons_append]
          exact List.take_left ..
        have hdrop : (c :: (w' ++ ' ' :: joinWords (x :: ws'))).drop (c :: w').length =
            ' ' :: joinWords (x :: ws') := by
          rw [← List.cons_append]
          exact List.drop_left ..
        rw [hsc, htake, hdrop, tokSimpleLoop_cons_space]
        have hlen' : (joinWords (x :: ws')).length < fuel := by
          simp at hlen
          omega
        rw [ih fuel hgood' (fun v hv => hbs v (List.mem_cons_of_mem _ hv)) hlen']

/-! ## Marker-to-space conversion -/

theorem unbreak_cons_ne (c : Char) (r : List Char) (hc : c ≠ '\\') :
    unbreak (c :: r) = c :: unbreak r := by
  match r with
  | [] => rfl
  | [d] => rfl
  | d :: e :: r' =>
    simp only [unbreak]
    rw [if_neg (fun hx => hc hx.1)]

theorem unbreak_marker (m : Char) (r : List Char) (hm : m = 'n' ∨ m = 'l' ∨ m = 'p') :
    unbreak ('\\' :: m :: '\n' :: r) = ' ' :: unbreak r := by
  rcases hm with rfl | rfl | rfl <;> simp [unbreak]

theorem unbreak_append_of_ne (A : List Char) (hbs : '\\' ∉ A) :
    ∀ t, unbreak (A ++ t) = A ++ unbreak t := by
  induction A with
  | nil => intro t; simp
  | cons c A ih =>
    intro t
    have hc : c ≠ '\\' := fun h => hbs (h ▸ List.mem_cons_self c A)
    have hbs' : '\\' ∉ A := fun h => hbs (List.mem_cons_of_mem c h)
    rw [List.cons_append, unbreak_cons_ne c _ hc, ih hbs' t, List.cons_append]

theorem unbreak_of_ne (A : List Char) (hbs : '\\' ∉ A) : unbreak A = A := by
  have := unbreak_append_of_ne A hbs []
  simpa [unbreak] using this

theorem Unb_nil : Unb [] := by
  intro t
  simp [unbreak]

theorem Unb_of_ne (A : List Char) (hbs : '\\' ∉ A) : Unb A := by
  intro t
  rw [unbreak_append_of_ne A hbs t, unbreak_of_ne A hbs]

theorem Unb_append (A B : List Char) (hA : Unb A) (hB : Unb B) : Unb (A ++ B) := by
  intro t
  rw [List.append_assoc, hA (B ++ t), hA B, hB t, List.append_assoc]

theorem Unb_marker (m : Char) (hm : m = 'n' ∨ m = 'l' ∨ m = 'p') :
    Unb ['\\', m, '\n'] := by
  intro t
  rw [show ['\\', m, '\n'] ++ t = '\\' :: m :: '\n' :: t from rfl]
  rw [unbreak_marker m t hm, unbreak_marker m [] hm]
  rfl

/-! ## Wrap-engine step lemmas -/

theorem processWords_nil (fc : FontConfig) (mw : Int) (fid : String) (s : WrapState) :
    processWords fc mw fid [] s = s := rfl

theorem processWords_cons (fc : FontConfig) (mw : Int) (fid : String)
    (w : List Char) (ws : List (List Char)) (s : WrapState) :
    processWords fc mw fid (w :: ws) s =
      processWords fc mw fid ws (processWord fc mw fid w s) := rfl

theorem processWord_break (fc : FontConfig) (mw : Int) (fid : String)
    (w : List Char) (s : WrapState) (hb : isLineBreak w = true) :
    processWord fc mw fid w s =
      ⟨s.formattedSb ++ s.curLineSb ++ w ++ ['\n'], [], 0, isParagraphBreak w, true⟩ := by
  simp [processWord, hb]

theorem processWord_flush (fc : FontConfig) (mw : Int) (fid : String)
    (w : List Char) (s : WrapState) (hb : isLineBreak w = false)
    (hf : s.curWidth + ((if s.isFirstWord then 0 else getRunePixelWidth fc ' ' fid) +
      getWordPixelWidth fc w fid) > mw)
    (hne : s.curLineSb ≠ []) :
    processWord fc mw fid w s =
      ⟨s.formattedSb ++ s.curLineSb ++
          (if s.isFirstLine then ['\\', 'n'] else ['\\', 'l']) ++ ['\n'],
        w,
        (if s.isFirstWord then 0 else getRunePixelWidth fc ' ' fid) +
          getWordPixelWidth fc w fid,
        false, false⟩ := by
  simp only [processWord, hb, Bool.false_eq_true, if_false]
  rw [if_pos ⟨hf, hne⟩]

theorem processWord_acc (fc : FontConfig) (mw : Int) (fid : String)
    (w : List Char) (s : WrapState) (hb : isLineBreak w = false)
    (hnf : ¬(s.curWidth + ((if s.isFirstWord then 0 else getRunePixelWidth fc ' ' fid) +
      getWordPixelWidth fc w fid) > mw ∧ s.curLineSb ≠ [])) :
    processWord fc mw fid w s =
      ⟨s.formattedSb,
        s.curLineSb ++ (if s.isFirstWord then [] else [' ']) ++ w,
        s.curWidth + ((if s.isFirstWord then 0 else getRunePixelWidth fc ' ' fid) +
          getWordPixelWidth fc w fid),
        s.isFirstLine, false⟩ := by
  simp only [processWord, hb, Bool.false_eq_true, if_false]
  rw [if_neg hnf]

theorem isLineBreak_mem_bs (w : List Char) (h : isLineBreak w = true) : '\\' ∈ w := by
  simp only [isLineBreak, Bool.or_eq_true, beq_iff_eq] at h
  rcases h with (h | h) | h <;> subst h <;> simp

/-- `FormatText`'s loop is the fold of `processWord` over the token stream. -/
theorem formatLoop_eq_processWords (fc : FontConfig) (mw : Int) (fid : String) :
    ∀ (fuel : Nat) (t : List Char) (s : WrapState),
      formatLoop fc mw fid fuel t s = processWords fc mw fid (tokenizeLoop fuel t) s := by
  intro fuel
  induction fuel with
  | zero => intro t s; simp [formatLoop, tokenizeLoop, processWords_nil]
  | succ fuel ih =>
    intro t s
    match t with
    | [] => simp [formatLoop, tokenizeLoop, processWords_nil]
    | a :: rest =>
      simp only [formatLoop, tokenizeLoop]
      split
      · simp [processWords_nil]
      · rw [ih, processWords_cons]

theorem FormatText_ok (fc : FontConfig) (text : List Char) (mw : Int) (fid : String)
    (h : ¬(¬ isFontIDValid fc fid = true ∧ 0 < fid.length ∧ fid ≠ testFontID)) :
    FormatText fc text mw fid =
      Except.ok (wrapOutput (processWords fc mw fid
        (tokenize (normalizeNewlines text)) ⟨[], [], 0, true, true⟩)) := by
  rw [FormatText, if_neg h]
  simp only [formatLoop_eq_processWords]
  rfl

theorem FormatText_err (fc : FontConfig) (text : List Char) (mw : Int) (fid : String)
    (h : ¬ isFontIDValid fc fid = true ∧ 0 < fid.length ∧ fid ≠ testFontID) :
    FormatText fc text mw fid = Except.error (unknownFontIDError fc fid) := by
  rw [FormatText, if_pos h]

theorem joinWords_append_single :
    ∀ (done : List (List Char)) (w : List Char), done ≠ [] →
      joinWords (done ++ [w]) = joinWords done ++ ' ' :: w := by
  intro done
  induction done with
  | nil => intro w h; exact absurd rfl h
  | cons x done ih =>
    intro w _
    cases done with
    | nil => simp [joinWords]
    | cons y done =>
      rw [List.cons_append, joinWords_cons x ((y :: done) ++ [w]) (by simp),
        joinWords_cons x (y :: done) (by simp), ih w (by simp), List.append_assoc]
      rfl

theorem joinWords_nil_iff : ∀ (ws : List (List Char)), ws = [] → joinWords ws = [] := by
  intro ws h
  subst h
  rfl

/-- The central invariant for re-wrapping: processing backslash-free words, the
output so far converts under `unbreak` to the space-separated join of the words
processed so far. -/
theorem processWords_unbreak_inv (fc : FontConfig) (mw : Int) (fid : String) :
    ∀ (ws done : List (List Char)) (s : WrapState),
      (∀ w ∈ ws, '\\' ∉ w) →
      Unb s.formattedSb → '\\' ∉ s.curLineSb →
      unbreak s.formattedSb ++ s.curLineSb = joinWords done →
      (s.isFirstWord = true ↔ done = []) →
      Unb (processWords fc mw fid ws s).formattedSb ∧
      '\\' ∉ (processWords fc mw fid ws s).curLineSb ∧
      unbreak (processWords fc mw fid ws s).formattedSb ++
        (processWords fc mw fid ws s).curLineSb = joinWords (done ++ ws) ∧
      ((processWords fc mw fid ws s).isFirstWord = true ↔ done ++ ws = []) := by
  intro ws
  induction ws with
  | nil =>
    intro done s _ h1 h2 h3 h4
    rw [processWords_nil]
    simpa using ⟨h1, h2, h3, h4⟩
  | cons w ws ih =>
    intro done s hwbs hUnb hclbs hjoin hfw
    have hw : '\\' ∉ w := hwbs w (List.mem_cons_self ..)
    have hws : ∀ v ∈ ws, '\\' ∉ v := fun v hv => hwbs v (List.mem_cons_of_mem _ hv)
    have hb : isLineBreak w = false := by
      rcases Bool.eq_false_or_eq_true (isLineBreak w) with h | h
      · exact absurd (isLineBreak_mem_bs w h) hw
      · exact h
    rw [processWords_cons]
    rw [show done ++ w :: ws = (done ++ [w]) ++ ws by simp]
    by_cases hflush : s.curWidth + ((if s.isFirstWord then 0 else
        getRunePixelWidth fc ' ' fid) + getWordPixelWidth fc w fid) > mw ∧
        s.curLineSb ≠ []
    · rw [processWord_flush fc mw fid w s hb hflush.1 hflush.2]
      have hdone : done ≠ [] := by
        intro hd
        rw [joinWords_nil_iff done hd] at hjoin
        exact hflush.2 (List.append_eq_nil.mp hjoin).2
      apply ih (done ++ [w])
      · exact hws
      · show Unb (s.formattedSb ++ s.curLineSb ++ _ ++ ['\n'])
        rw [List.append_assoc, List.append_assoc]
        apply Unb_append _ _ hUnb
        apply Unb_append _ _ (Unb_of_ne _ hclbs)
        rcases Bool.eq_false_or_eq_true s.isFirstLine with h | h <;> rw [h]
        · exact Unb_marker 'n' (Or.inl rfl)
        · exact Unb_marker 'l' (Or.inr (Or.inl rfl))
      · exact hw
      · show unbreak (s.formattedSb ++ s.curLineSb ++ _ ++ ['\n']) ++ w = _
        rw [List.append_assoc, List.append_assoc]
        rw [hUnb, unbreak_append_of_ne _ hclbs]
        have hmk : unbreak ((if s.isFirstLine then ['\\', 'n'] else ['\\', 'l']) ++ ['\n']) =
            [' '] := by
          rcases Bool.eq_false_or_eq_true s.isFirstLine with h | h <;> rw [h]
          · exact unbreak_marker 'n' [] (Or.inl rfl)
          · exact unbreak_marker 'l' [] (Or.inr (Or.inl rfl))
        rw [hmk, joinWords_append_single done w hdone]
        rw [show unbreak s.formattedSb ++ (s.curLineSb ++ [' ']) ++ w =
          (unbreak s.formattedSb ++ s.curLineSb) ++ ([' '] ++ w) by simp]
        rw [hjoin]
        rfl
      · simp
    · rw [processWord_acc fc mw fid w s hb hflush]
      apply ih (done ++ [w])
      · exact hws
      · exact hUnb
      · show '\\' ∉ s.curLineSb ++ _ ++ w
        intro hmem
        rcases List.mem_append.mp hmem with hmem | hmem
        · rcases List.mem_append.mp hmem with hmem | hmem
          · exact hclbs hmem
          · rcases Bool.eq_false_or_eq_true s.isFirstWord with h | h <;>
              rw [h] at hmem <;> simp at hmem
        · exact hw hmem
      · show unbreak s.formattedSb ++ (s.curLineSb ++ _ ++ w) = _
        rcases Bool.eq_false_or_eq_true s.isFirstWord with h | h
        · have hdone : done = [] := hfw.mp h
          subst hdone
          have hz : unbreak s.formattedSb = [] ∧ s.curLineSb = [] := by
            rw [show joinWords [] = [] from rfl] at hjoin
            exact List.append_eq_nil.mp hjoin
          rw [h, hz.1, hz.2]
          simp [joinWords]
        · have hdone : done ≠ [] := fun hd => by
            rw [hd] at hfw
            rw [hfw.mpr rfl] at h
            exact Bool.noConfusion h
          rw [h, joinWords_append_single done w hdone]
          simp only [Bool.false_eq_true, if_false]
          rw [show unbreak s.formattedSb ++ ((s.curLineSb ++ [' ']) ++ w) =
            (unbreak s.formattedSb ++ s.curLineSb) ++ ([' '] ++ w) by simp]
          rw [hjoin]
          rfl
      · simp

theorem normalizeNewlines_no_nl (t : List Char) : '\n' ∉ normalizeNewlines t := by
  intro h
  simp only [normalizeNewlines, List.mem_map] at h
  obtain ⟨a, _, ha⟩ := h
  by_cases hn : a = '\n' <;> simp [hn] at ha

theorem normalizeNewlines_no_bs (t : List Char) (h : '\\' ∉ t) :
    '\\' ∉ normalizeNewlines t := by
  intro hm
  simp only [normalizeNewlines, List.mem_map] at hm
  obtain ⟨a, hmem, ha⟩ := hm
  by_cases hn : a = '\n' <;> simp [hn] at ha
  exact h (ha ▸ hmem)

theorem normalizeNewlines_eq_self (t : List Char) (h : '\n' ∉ t) :
    normalizeNewlines t = t := by
  unfold normalizeNewlines
  have hcg : ∀ a ∈ t, (if a = '\n' then ' ' else a) = id a := by
    intro a ha
    rw [if_neg (fun he : a = '\n' => h (he ▸ ha))]
    rfl
  rw [List.map_congr_left hcg, List.map_id]

/-- First half of re-wrapping: `unbreak` of the produced output is the
space-separated join of the consumed tokens. -/
theorem unbreak_output_eq_join (fc : FontConfig) (mw : Int) (fid : String)
    (t2 : List Char) (hbs : '\\' ∉ t2) :
    unbreak (wrapOutput (processWords fc mw fid (tokenize t2)
      ⟨[], [], 0, true, true⟩)) = joinWords (tokenize t2) := by
  have hwbs : ∀ w ∈ tokenize t2, '\\' ∉ w :=
    fun w hw hm => hbs (tokenize_subset t2 w hw '\\' hm)
  obtain ⟨hU, hcl, hjoin, _⟩ := processWords_unbreak_inv fc mw fid (tokenize t2) []
    ⟨[], [], 0, true, true⟩ hwbs Unb_nil (by simp)
    (by rw [show unbreak [] = [] from rfl]; rfl) (by simp)
  unfold wrapOutput
  rw [hU _, unbreak_of_ne _ hcl, hjoin]
  simp

/-- Full re-wrap helper: for backslash-free input, converting the markers of
the output back to spaces and formatting again reproduces the output. -/
theorem rewrap_noBS (fc : FontConfig) (mw : Int) (fid : String) (text out : List Char)
    (hbs : '\\' ∉ text) (h : FormatText fc text mw fid = Except.ok out) :
    FormatText fc (unbreak out) mw fid = Except.ok out := by
  by_cases hv : ¬ isFontIDValid fc fid = true ∧ 0 < fid.length ∧ fid ≠ testFontID
  · rw [FormatText_err fc text mw fid hv] at h
    exact Except.noConfusion h
  · rw [FormatText_ok fc text mw fid hv] at h
    have hout := Except.ok.inj h
    have hbs2 : '\\' ∉ normalizeNewlines text := normalizeNewlines_no_bs text hbs
    have hwbs : ∀ w ∈ tokenize (normalizeNewlines text), '\\' ∉ w :=
      fun w hw hm => hbs2 (tokenize_subset _ w hw '\\' hm)
    have hwnl : ∀ w ∈ tokenize (normalizeNewlines text), '\n' ∉ w :=
      fun w hw hm => normalizeNewlines_no_nl text (tokenize_subset _ w hw '\n' hm)
    have hgood : goodToks (tokenize (normalizeNewlines text)) := by
      rw [tokenize, tokenizeLoop_eq_simple _ _ hbs2]
      exact tokSimple_good _ _ hbs2 (by omega)
    have hjoin : unbreak out = joinWords (tokenize (normalizeNewlines text)) := by
      rw [← hout]
      exact unbreak_output_eq_join fc mw fid _ hbs2
    rw [FormatText_ok fc (unbreak out) mw fid hv]
    have hnorm : normalizeNewlines (unbreak out) = unbreak out := by
      apply normalizeNewlines_eq_self
      rw [hjoin]
      exact not_mem_joinWords _ '\n' (by decide) hwnl
    rw [hnorm, hjoin]
    have hretok : tokenize (joinWords (tokenize (normalizeNewlines text))) =
        tokenize (normalizeNewlines text) := by
      rw [tokenize, tokenizeLoop_eq_simple _ _
        (not_mem_joinWords _ '\\' (by decide) hwbs)]
      exact tokSimpleLoop_joinWords _ _ hgood hwbs (by omega)
    rw [hretok, hout]

/-! ## Words survive intact in the output -/

theorem processWord_output_decomp (fc : FontConfig) (mw : Int) (fid : String)
    (w : List Char) (s : WrapState) :
    ∃ a b, wrapOutput (processWord fc mw fid w s) = wrapOutput s ++ (a ++ (w ++ b)) := by
  rcases Bool.eq_false_or_eq_true (isLineBreak w) with hb | hb
  · rw [processWord_break fc mw fid w s hb]
    exact ⟨[], ['\n'], by simp [wrapOutput]⟩
  · by_cases hf : s.curWidth + ((if s.isFirstWord then 0 else
        getRunePixelWidth fc ' ' fid) + getWordPixelWidth fc w fid) > mw ∧
        s.curLineSb ≠ []
    · rw [processWord_flush fc mw fid w s hb hf.1 hf.2]
      exact ⟨(if s.isFirstLine then ['\\', 'n'] else ['\\', 'l']) ++ ['\n'], [],
        by simp [wrapOutput]⟩
    · rw [processWord_acc fc mw fid w s hb hf]
      exact ⟨(if s.isFirstWord then [] else [' ']), [], by simp [wrapOutput]⟩

theorem processWords_output_ext (fc : FontConfig) (mw : Int) (fid : String) :
    ∀ (ws : List (List Char)) (s : WrapState),
      ∃ e, wrapOutput (processWords fc mw fid ws s) = wrapOutput s ++ e := by
  intro ws
  induction ws with
  | nil => intro s; exact ⟨[], by simp [processWords_nil]⟩
  | cons w ws ih =>
    intro s
    obtain ⟨a, b, hab⟩ := processWord_output_decomp fc mw fid w s
    obtain ⟨e, he⟩ := ih (processWord fc mw fid w s)
    rw [processWords_cons]
    exact ⟨(a ++ (w ++ b)) ++ e, by rw [he, hab, List.append_assoc]⟩

/-- Every token processed by the wrap engine occurs contiguously in the final
output. -/
theorem processWords_mem_decomp (fc : FontConfig) (mw : Int) (fid : String) :
    ∀ (ws : List (List Char)) (s : WrapState) (w : List Char), w ∈ ws →
      ∃ u v, wrapOutput (processWords fc mw fid ws s) = u ++ (w ++ v) := by
  intro ws
  induction ws with
  | nil => intro s w h; simp at h
  | cons x ws ih =>
    intro s w hmem
    rw [processWords_cons]
    rcases List.mem_cons.mp hmem with rfl | hmem
    · obtain ⟨a, b, hab⟩ := processWord_output_decomp fc mw fid w s
      obtain ⟨e, he⟩ := processWords_output_ext fc mw fid ws (processWord fc mw fid w s)
      refine ⟨wrapOutput s ++ a, b ++ e, ?_⟩
      rw [he, hab]
      simp
    · exact ih (processWord fc mw fid x s) w hmem

/-! ## Escape-boundary behaviour of the tokenizer -/

theorem braceStep_neutral (c : Char) (l : Nat) (h1 : c ≠ '{') (h2 : c ≠ '}') :
    braceStep c l = l := by
  simp [braceStep, h1, h2]

/-- Scanning an ordinary word with a regular rune already seen, a following
`\l`/`\n`/`\p` escape terminates the token just before the backslash. -/
theorem scanAux_word_escape (text : List Char) :
    ∀ (w : List Char) (pos sp e : Nat) (d : Char) (rest : List Char),
      (∀ a ∈ w, a ≠ ' ' ∧ a ≠ '\\' ∧ a ≠ '{' ∧ a ≠ '}') →
      (d = 'l' ∨ d = 'n' ∨ d = 'p') →
      getNextWordAux text (w ++ '\\' :: d :: rest) pos ⟨false, e, sp, true, true, false, 0⟩ =
        (pos + w.length, goSlice text sp (pos + w.length)) := by
  intro w
  induction w with
  | nil =>
    intro pos sp e d rest _ hd
    rw [List.nil_append, gnwAux_step]
    rw [if_pos ⟨rfl, rfl⟩]
    rcases hd with rfl | rfl | rfl <;> simp [getNextWordAux]
  | cons a w ih =>
    intro pos sp e d rest hord hd
    obtain ⟨ha1, ha2, ha3, ha4⟩ := hord a (List.mem_cons_self ..)
    rw [List.cons_append, gnwAux_step]
    rw [if_neg (fun hx : _ ∧ _ => ha2 hx.1), if_neg ha1]
    rw [show (if (true : Bool) then sp else pos) = sp by simp]
    rw [braceStep_neutral a 0 ha3 ha4]
    rw [ih (pos + 1) sp e d rest (fun b hb => hord b (List.mem_cons_of_mem a hb)) hd]
    rw [show pos + 1 + w.length = pos + (w.length + 1) by omega]
    simp
theorem getNextWord_word_escape (w : List Char) (d : Char) (rest : List Char)
    (hw : w ≠ []) (hord : ∀ a ∈ w, a ≠ ' ' ∧ a ≠ '\\' ∧ a ≠ '{' ∧ a ≠ '}')
    (hd : d = 'l' ∨ d = 'n' ∨ d = 'p') :
    getNextWord (w ++ '\\' :: d :: rest) = (w.length, w) := by
  obtain ⟨a, w', rfl⟩ := List.exists_cons_of_ne_nil hw
  obtain ⟨ha1, ha2, ha3, ha4⟩ := hord a (List.mem_cons_self ..)
  unfold getNextWord
  rw [List.cons_append, gnwAux_step]
  rw [if_neg (fun hx : _ ∧ _ => ha2 hx.1), if_neg ha1]
  rw [show (if (false : Bool) then 0 else 0) = 0 by simp]
  rw [braceStep_neutral a 0 ha3 ha4]
  rw [scanAux_word_escape _ w' 1 0 0 d rest
    (fun b hb => hord b (List.mem_cons_of_mem a hb)) hd]
  rw [show (1 : Nat) + w'.length = (a :: w').length by simp [Nat.add_comm]]
  rw [show goSlice (a :: (w' ++ '\\' :: d :: rest)) 0 (a :: w').length =
    ((a :: w') ++ '\\' :: d :: rest).take (a :: w').length by rw [goSlice]; simp]
  rw [List.take_left]

/-- A `\l`/`\n`/`\p` escape with no preceding ordinary character is itself the
returned token, consuming exactly the two escape characters. -/
theorem getNextWord_escape_token (d : Char) (rest : List Char)
    (hd : d = 'l' ∨ d = 'n' ∨ d = 'p') :
    getNextWord ('\\' :: d :: rest) = (2, ['\\', d]) := by
  unfold getNextWord
  rw [gnwAux_step]
  rw [if_pos ⟨rfl, rfl⟩]
  rcases hd with rfl | rfl | rfl <;> cases rest <;> simp [getNextWordAux, goSlice]

/-- A backslash followed by a character other than `l`, `n`, `p` is ordinary
text: the token keeps the backslash and scanning continues past it. -/
theorem getNextWord_escape_other (c : Char) (rest : List Char)
    (hc : ¬(c = 'l' ∨ c = 'n' ∨ c = 'p')) (hsp : c ≠ ' ') (hbs : c ≠ '\\')
    (hb1 : c ≠ '{') (hb2 : c ≠ '}') :
    getNextWord ('\\' :: c :: ' ' :: rest) = (2, ['\\', c]) := by
  unfold getNextWord
  rw [gnwAux_step]
  rw [if_pos ⟨rfl, rfl⟩]
  simp [getNextWordAux, goSlice, hc, hsp, hbs, braceStep_neutral c 0 hb1 hb2]

/-! ## Substring occurrence checker -/

theorem isPrefOf_iff : ∀ (w t : List Char), isPrefOf w t = true ↔ ∃ v, t = w ++ v := by
  intro w
  induction w with
  | nil => intro t; simp [isPrefOf]
  | cons a as ih =>
    intro t
    cases t with
    | nil => simp [isPrefOf]
    | cons b bs =>
      simp only [isPrefOf, Bool.and_eq_true, beq_iff_eq]
      constructor
      · rintro ⟨rfl, h⟩
        obtain ⟨v, rfl⟩ := (ih bs).mp h
        exact ⟨v, rfl⟩
      · rintro ⟨v, hv⟩
        rw [List.cons_append] at hv
        injection hv with h1 h2
        exact ⟨h1.symm, (ih bs).mpr ⟨v, h2⟩⟩

theorem hasSub_iff : ∀ (t w : List Char), hasSub w t = true ↔ ∃ u v, t = u ++ (w ++ v) := by
  intro t
  induction t with
  | nil =>
    intro w
    simp only [hasSub, isPrefOf_iff]
    constructor
    · rintro ⟨v, hv⟩
      exact ⟨[], v, by simpa using hv⟩
    · rintro ⟨u, v, huv⟩
      have h1 := List.append_eq_nil.mp huv.symm
      have h2 := List.append_eq_nil.mp h1.2
      exact ⟨v, by rw [h2.1]; simpa using h2.2.symm⟩
  | cons c ts ih =>
    intro w
    simp only [hasSub, Bool.or_eq_true, isPrefOf_iff, ih]
    constructor
    · rintro (⟨v, hv⟩ | ⟨u, v, huv⟩)
      · exact ⟨[], v, by simpa using hv⟩
      · exact ⟨c :: u, v, by rw [List.cons_append, huv]⟩
    · rintro ⟨u, v, huv⟩
      cases u with
      | nil => exact Or.inl ⟨v, by simpa using huv⟩
      | cons x u =>
        rw [List.cons_append] at huv
        injection huv with h1 h2
        exact Or.inr ⟨u, v, h2⟩

/-! ## Final helpers -/

theorem valid_font_cases (fc : FontConfig) (fid : String)
    (h : isFontIDValid fc fid = true ∨ fid.length = 0 ∨ fid = testFontID) :
    ¬(¬ isFontIDValid fc fid = true ∧ 0 < fid.length ∧ fid ≠ testFontID) := by
  rintro ⟨h1, h2, h3⟩
  rcases h with h | h | h
  · exact h1 h
  · omega
  · exact h3 h

theorem unknownFontIDError_contains (fc : FontConfig) (fid : String) :
    ∀ k ∈ validFontIDs fc, ∃ u v, unknownFontIDError fc fid = u ++ (k.data ++ v) := by
  intro k hk
  obtain ⟨u, v, huv⟩ := joinWords_mem_decomp ((validFontIDs fc).map String.data) k.data
    (List.mem_map_of_mem String.data hk)
  refine ⟨"unknown fontID '".data ++ fid.data ++
    "' used in format(). List of valid fontIDs are '[".data ++ u, v ++ "]'".data, ?_⟩
  rw [unknownFontIDError, validFontIDsJoined, huv]
  simp

/-! ## The claims -/

/-- C1: `FormatText` on text `"ab cd"` with `maxWidth 25` and the reserved
test font succeeds and returns exactly `"ab"`, a literal backslash, `n`, a
real newline, then `"cd"`: the first word fits with width 20, the second
word's candidate width is 30, `50 > 25` flushes, and the auto marker is `\n`
because the line is the first of a paragraph.  Holds for every font table,
since the test font bypasses it. -/
theorem c1_test_font_wrap (fc : FontConfig) :
    FormatText fc "ab cd".data 25 "TEST" = Except.ok "ab\\n\ncd".data := by
  rw [FormatText_ok fc _ 25 "TEST" (valid_font_cases fc "TEST" (Or.inr (Or.inr rfl)))]
  rfl

/-- C2: `FormatText` errors exactly when the font id is non-empty, not the
test sentinel and absent from the table; the error carries the list of valid
font identifiers (each table key occurs in the message) and no output is
produced (the `error` constructor has none); in every other case the call
returns `ok`. -/
theorem c2_unknown_font_iff (fc : FontConfig) (text : List Char) (mw : Int)
    (fid : String) :
    (¬ isFontIDValid fc fid = true ∧ 0 < fid.length ∧ fid ≠ testFontID →
      FormatText fc text mw fid = Except.error (unknownFontIDError fc fid) ∧
      ∀ k ∈ validFontIDs fc, ∃ u v, unknownFontIDError fc fid = u ++ (k.data ++ v)) ∧
    ((isFontIDValid fc fid = true ∨ fid.length = 0 ∨ fid = testFontID) →
      ∃ out, FormatText fc text mw fid = Except.ok out) := by
  constructor
  · intro h
    exact ⟨FormatText_err fc text mw fid h, unknownFontIDError_contains fc fid⟩
  · intro h
    exact ⟨_, FormatText_ok fc text mw fid (valid_font_cases fc fid h)⟩

theorem c2_unknown_font_iff_witness :
    FormatText fcSample "hi".data 100 "BOGUS" =
      Except.error (unknownFontIDError fcSample "BOGUS") ∧
    (∃ out, FormatText fcSample "hi".data 100 "1_latin" = Except.ok out) := by
  refine ⟨?_, ?_⟩
  · exact ((c2_unknown_font_iff fcSample "hi".data 100 "BOGUS").1
      ⟨by decide, by decide, by decide⟩).1
  · exact (c2_unknown_font_iff fcSample "hi".data 100 "1_latin").2 (Or.inl (by decide))

/-- C3: on an auto-wrap flush for a word that was not going to be the first
word of the old line, the new line's recorded width is the word width
including the interword-space component (so it overstates the true pixel
usage of the new line, `getWordPixelWidth` alone, by exactly one space
width), and `isFirstWord` is false after the flush. -/
theorem c3_flush_retains_space_width (fc : FontConfig) (mw : Int) (fid : String)
    (w : List Char) (s : WrapState)
    (hb : isLineBreak w = false) (hfw : s.isFirstWord = false)
    (hover : s.curWidth + (getRunePixelWidth fc ' ' fid + getWordPixelWidth fc w fid) > mw)
    (hne : s.curLineSb ≠ []) :
    (processWord fc mw fid w s).curWidth =
      getWordPixelWidth fc w fid + getRunePixelWidth fc ' ' fid ∧
    (processWord fc mw fid w s).curLineSb = w ∧
    (processWord fc mw fid w s).isFirstWord = false := by
  rw [processWord_flush fc mw fid w s hb (by rw [hfw]; simpa using hover) hne]
  refine ⟨?_, rfl, rfl⟩
  rw [hfw]
  simp [Int.add_comm]

theorem c3_flush_retains_space_width_witness :
    (processWord fcEmpty 25 "TEST" "cd".data ⟨[], "ab".data, 20, true, false⟩).curWidth =
      getWordPixelWidth fcEmpty "cd".data "TEST" +
        getRunePixelWidth fcEmpty ' ' "TEST" ∧
    (processWord fcEmpty 25 "TEST" "cd".data ⟨[], "ab".data, 20, true, false⟩).curLineSb =
      "cd".data ∧
    (processWord fcEmpty 25 "TEST" "cd".data ⟨[], "ab".data, 20, true, false⟩).isFirstWord =
      false :=
  c3_flush_retains_space_width fcEmpty 25 "TEST" "cd".data
    ⟨[], "ab".data, 20, true, false⟩ (by decide) rfl (by decide) (by decide)

/-- C4: an authored break token is flushed verbatim: the accumulated line,
the break token text, then a real newline are appended; the width and line
buffer reset, `isFirstWord` becomes true, and `isFirstLine` is set exactly
when the token is `\p`; concretely `hello\p world` with the test font and a
large width yields `hello\p`, a newline, then `world`. -/
theorem c4_break_token_flush (fc : FontConfig) (mw : Int) (fid : String)
    (w : List Char) (s : WrapState) (hb : isLineBreak w = true) :
    processWord fc mw fid w s =
      ⟨s.formattedSb ++ s.curLineSb ++ w ++ ['\n'], [], 0, isParagraphBreak w, true⟩ ∧
    isParagraphBreak ['\\', 'p'] = true ∧
    isParagraphBreak ['\\', 'n'] = false ∧
    isParagraphBreak ['\\', 'l'] = false ∧
    (∀ fc2 : FontConfig,
      FormatText fc2 "hello\\p world".data 1000 "TEST" =
        Except.ok "hello\\p\nworld".data) := by
  refine ⟨processWord_break fc mw fid w s hb, by decide, by decide, by decide, ?_⟩
  intro fc2
  rw [FormatText_ok fc2 _ 1000 "TEST" (valid_font_cases fc2 "TEST" (Or.inr (Or.inr rfl)))]
  rfl

theorem c4_break_token_flush_witness :
    processWord fcEmpty 100 "TEST" ['\\', 'p'] ⟨['x'], ['y'], 5, false, false⟩ =
      ⟨['x', 'y', '\\', 'p', '\n'], [], 0, true, true⟩ := by
  rw [(c4_break_token_flush fcEmpty 100 "TEST" ['\\', 'p']
    ⟨['x'], ['y'], 5, false, false⟩ (by decide)).1]
  rfl

/-- C5: width lookup is total with the fallback chain: the test font returns
10 per character and 100 per control code regardless of the table; a font id
absent from the table gives 0; a present font uses its `widths` entry,
falling back to its `"default"` entry, then 0. -/
theorem c5_width_lookup_chain (fc : FontConfig) (r : Char) (code : List Char)
    (v fid : String) :
    getRunePixelWidth fc r testFontID = 10 ∧
    getControlCodePixelWidth fc code testFontID = 100 ∧
    (fid ≠ testFontID → fc.fonts.lookup fid = none →
      getRunePixelWidth fc r fid = 0 ∧ getControlCodePixelWidth fc code fid = 0) ∧
    (∀ font : Fonts, fc.fonts.lookup fid = some font →
      readWidthFromFontConfig fc v fid =
        match font.widths.lookup v with
        | some width => width
        | none =>
          match font.widths.lookup "default" with
          | some d => d
          | none => 0) := by
  refine ⟨by simp [getRunePixelWidth], by simp [getControlCodePixelWidth], ?_, ?_⟩
  · intro hne hnone
    constructor
    · simp [getRunePixelWidth, hne, readWidthFromFontConfig, hnone, fallbackWidth]
    · simp [getControlCodePixelWidth, hne, readWidthFromFontConfig, hnone, fallbackWidth]
  · intro font hfont
    simp only [readWidthFromFontConfig, hfont, fallbackWidth]

theorem c5_width_lookup_chain_witness :
    getRunePixelWidth fcSample 'x' "TEST" = 10 ∧
    getRunePixelWidth fcSample 'x' "none" = 0 ∧
    readWidthFromFontConfig fcSample "a" "1_latin" = 5 ∧
    readWidthFromFontConfig fcSample "zz" "1_latin" = 8 := by
  refine ⟨(c5_width_lookup_chain fcSample 'x' [] "a" "none").1, ?_, ?_, ?_⟩
  · exact ((c5_width_lookup_chain fcSample 'x' [] "a" "none").2.2.1
      (by decide) (by decide)).1
  · rw [(c5_width_lookup_chain fcSample 'x' [] "a" "1_latin").2.2.2
      ⟨[("a", 5), (" ", 3), ("default", 8)], 208⟩ (by decide)]
    decide
  · rw [(c5_width_lookup_chain fcSample 'x' [] "zz" "1_latin").2.2.2
      ⟨[("a", 5), (" ", 3), ("default", 8)], 208⟩ (by decide)]
    decide

/-- C6: a word's measured width is the sum of its control-code span widths
(keyed by the full brace-delimited text) plus the per-character widths of the
remaining glyphs, while the emitted text keeps the codes verbatim; concretely
`{COLOR RED}hi` under the test font weighs 100 + 10 + 10 = 120 and appears
unchanged in the output. -/
theorem c6_control_code_width (fc : FontConfig) (fid : String) (word : List Char) :
    getWordPixelWidth fc word fid =
      ((findControlCodes (word.length + 1) word).1.map
        (fun code => getControlCodePixelWidth fc code fid)).sum +
      ((findControlCodes (word.length + 1) word).2.map
        (fun r => getRunePixelWidth fc r fid)).sum ∧
    getWordPixelWidth fc "\x7bCOLOR RED\x7dhi".data "TEST" = 120 ∧
    FormatText fc "\x7bCOLOR RED\x7dhi".data 1000 "TEST" =
      Except.ok "\x7bCOLOR RED\x7dhi".data := by
  refine ⟨rfl, rfl, ?_⟩
  rw [FormatText_ok fc _ 1000 "TEST" (valid_font_cases fc "TEST" (Or.inr (Or.inr rfl)))]
  rfl

/-- C7: tokenizer escape boundaries at brace depth zero: a `\l`/`\n`/`\p`
escape after accumulated ordinary characters terminates the word just before
the backslash and leaves the escape unconsumed; with no preceding ordinary
characters the two-character escape is the returned token; a backslash before
any other character is ordinary text and scanning continues past it. -/
theorem c7_escape_boundary (w : List Char) (d c : Char) (rest : List Char) :
    (w ≠ [] → (∀ a ∈ w, a ≠ ' ' ∧ a ≠ '\\' ∧ a ≠ '{' ∧ a ≠ '}') →
      (d = 'l' ∨ d = 'n' ∨ d = 'p') →
      getNextWord (w ++ '\\' :: d :: rest) = (w.length, w) ∧
      (w ++ '\\' :: d :: rest).drop w.length = '\\' :: d :: rest) ∧
    ((d = 'l' ∨ d = 'n' ∨ d = 'p') →
      getNextWord ('\\' :: d :: rest) = (2, ['\\', d])) ∧
    (¬(c = 'l' ∨ c = 'n' ∨ c = 'p') → c ≠ ' ' → c ≠ '\\' → c ≠ '{' → c ≠ '}' →
      getNextWord ('\\' :: c :: ' ' :: rest) = (2, ['\\', c])) := by
  refine ⟨fun hw hord hd => ⟨getNextWord_word_escape w d rest hw hord hd, ?_⟩,
    getNextWord_escape_token d rest,
    fun h1 h2 h3 h4 h5 => getNextWord_escape_other c rest h1 h2 h3 h4 h5⟩
  exact List.drop_left w ('\\' :: d :: rest)

theorem c7_escape_boundary_witness :
    (getNextWord ("ab".data ++ '\\' :: 'n' :: " cd".data) = (2, "ab".data) ∧
      ("ab".data ++ '\\' :: 'n' :: " cd".data).drop 2 = '\\' :: 'n' :: " cd".data) ∧
    getNextWord ('\\' :: 'n' :: " cd".data) = (2, ['\\', 'n']) ∧
    getNextWord ('\\' :: 'x' :: ' ' :: "cd".data) = (2, ['\\', 'x']) := by
  have h := c7_escape_boundary "ab".data 'n' 'x' " cd".data
  have h2 := c7_escape_boundary "ab".data 'n' 'x' "cd".data
  exact ⟨h.1 (by decide) (by decide) (Or.inr (Or.inl rfl)),
    h.2.1 (Or.inr (Or.inl rfl)),
    h2.2.2 (by decide) (by decide) (by decide) (by decide) (by decide)⟩

/-- C8 (counterexample): the input `ab\nxy` (a backslash-n escape embedded in
a single space-delimited word — the input contains no space, so the whole
input is its one space-delimited word) formats to `ab\n`, a real newline,
`xy`; the space-delimited word does not appear contiguously in the output, so
escape sequences do split space-delimited words. -/
theorem c8_word_split_counterexample :
    FormatText fcEmpty "ab\\nxy".data 1000 "TEST" = Except.ok "ab\\n\nxy".data ∧
    ' ' ∉ "ab\\nxy".data ∧
    ¬ ∃ u v, "ab\\n\nxy".data = u ++ ("ab\\nxy".data ++ v) := by
  refine ⟨by rfl, by decide, ?_⟩
  rintro ⟨u, v, h⟩
  have hsub := (hasSub_iff "ab\\n\nxy".data "ab\\nxy".data).mpr ⟨u, v, h⟩
  exact absurd hsub (by decide)

/-- C8 (amended): every word token produced by the tokenizer from the
newline-normalized input (space-delimited outside control codes, with break
escapes also acting as token boundaries) appears intact and contiguous in the
output — the engine only inserts text between tokens, never inside one; and a
space inside a brace-delimited control-code span is not a token boundary. -/
theorem c8_tokens_intact (fc : FontConfig) (text out : List Char) (mw : Int)
    (fid : String) (h : FormatText fc text mw fid = Except.ok out) :
    (∀ w ∈ tokenize (normalizeNewlines text), ∃ u v, out = u ++ (w ++ v)) ∧
    tokenize ['{', 'a', ' ', 'b', '}', ' ', 'c'] = [['{', 'a', ' ', 'b', '}'], ['c']] := by
  constructor
  · intro w hw
    by_cases hv : ¬ isFontIDValid fc fid = true ∧ 0 < fid.length ∧ fid ≠ testFontID
    · rw [FormatText_err fc text mw fid hv] at h
      exact Except.noConfusion h
    · rw [FormatText_ok fc text mw fid hv] at h
      have hout := Except.ok.inj h
      rw [← hout]
      exact processWords_mem_decomp fc mw fid _ _ w hw
  · rfl

theorem c8_tokens_intact_witness :
    (∀ w ∈ tokenize (normalizeNewlines "ab cd".data),
      ∃ u v, "ab\\n\ncd".data = u ++ (w ++ v)) ∧
    tokenize ['{', 'a', ' ', 'b', '}', ' ', 'c'] = [['{', 'a', ' ', 'b', '}'], ['c']] :=
  c8_tokens_intact fcEmpty "ab cd".data "ab\\n\ncd".data 25 "TEST" (by rfl)

/-- C9 (counterexample): for input `a\lb` (an authored `\l` break), the first
run yields `a\l`, newline, `b`; converting the break markers of that output
back to spaces gives `a b`, and re-running produces `a b`, which is not
byte-identical to the first output — so re-wrap after marker-to-space
conversion is not idempotent for inputs with authored break escapes. -/
theorem c9_rewrap_counterexample :
    FormatText fcEmpty "a\\lb".data 100 "TEST" = Except.ok "a\\l\nb".data ∧
    unbreak "a\\l\nb".data = "a b".data ∧
    FormatText fcEmpty (unbreak "a\\l\nb".data) 100 "TEST" = Except.ok "a b".data ∧
    "a b".data ≠ "a\\l\nb".data := by
  exact ⟨by rfl, by rfl, by rfl, by decide⟩

/-- C9 (amended): for every input containing no backslash (hence no authored
break escapes), formatting, converting the inserted break markers back to
spaces, and formatting again with the same `maxWidth` and font id yields
output byte-identical to the first run's output. -/
theorem c9_rewrap_idempotent (fc : FontConfig) (text out : List Char) (mw : Int)
    (fid : String) (hbs : '\\' ∉ text)
    (h : FormatText fc text mw fid = Except.ok out) :
    FormatText fc (unbreak out) mw fid = Except.ok out :=
  rewrap_noBS fc mw fid text out hbs h

theorem c9_rewrap_idempotent_witness :
    FormatText fcEmpty (unbreak "ab\\n\ncd".data) 25 "TEST" =
      Except.ok "ab\\n\ncd".data :=
  c9_rewrap_idempotent fcEmpty "ab cd".data "ab\\n\ncd".data 25 "TEST"
    (by decide) (by rfl)

/-- C10: an auto-wrap flush happens only when the line buffer is non-empty:
with an empty line buffer a word never flushes (the output buffer is
unchanged, so auto-wrap never emits an empty line) and as first word it is
placed whole as the new line; consequently, whenever the (newline-normalized)
input tokenizes to a single non-break word — however wide, for any `maxWidth`
including zero and negative — the call succeeds and returns the word intact. -/
theorem c10_oversized_word_intact (fc : FontConfig) (mw : Int) (fid : String)
    (w : List Char) (s : WrapState) (text : List Char) :
    (isLineBreak w = false → s.curLineSb = [] →
      (processWord fc mw fid w s).formattedSb = s.formattedSb ∧
      (s.isFirstWord = true → (processWord fc mw fid w s).curLineSb = w)) ∧
    ((isFontIDValid fc fid = true ∨ fid.length = 0 ∨ fid = testFontID) →
      tokenize (normalizeNewlines text) = [w] → isLineBreak w = false →
      FormatText fc text mw fid = Except.ok w) := by
  constructor
  · intro hb hcl
    rw [processWord_acc fc mw fid w s hb (fun hx => hx.2 hcl)]
    refine ⟨rfl, fun hfw => ?_⟩
    rw [show (⟨s.formattedSb, s.curLineSb ++ (if s.isFirstWord then [] else [' ']) ++ w,
      s.curWidth + ((if s.isFirstWord then 0 else getRunePixelWidth fc ' ' fid) +
        getWordPixelWidth fc w fid), s.isFirstLine, false⟩ : WrapState).curLineSb =
      s.curLineSb ++ (if s.isFirstWord then [] else [' ']) ++ w from rfl]
    rw [hcl, hfw]
    simp
  · intro hvalid htok hb
    rw [FormatText_ok fc text mw fid (valid_font_cases fc fid hvalid), htok,
      processWords_cons, processWords_nil]
    rw [processWord_acc fc mw fid w _ hb (fun hx => hx.2 rfl)]
    simp [wrapOutput]

theorem c10_oversized_word_intact_witness :
    FormatText fcEmpty "abc".data (-5) "TEST" = Except.ok "abc".data :=
  (c10_oversized_word_intact fcEmpty (-5) "TEST" "abc".data
    ⟨[], [], 0, true, true⟩ "abc".data).2 (Or.inr (Or.inr rfl)) (by rfl) (by decide)
